import Mathlib

/-!
Verification development for the URL-list → directory-tree service
(`src/index.ts`): the URL decomposer and tree builder `transformToTree`,
and the TTL cache logic of the `/api/files` handler and `updateCache`.
-/

set_option autoImplicit false

namespace BlueGrid

/-! ## Data model

`interface Item { fileUrl: string }` -/

structure Item where
  fileUrl : String

/-- One element of a directory's entry array (`Array<Tree | string>` in the
source): either a plain file name, or a subdirectory object.  Subdirectory
objects created by `transformToTree` always carry exactly one key, so a
subdirectory is modelled as that key together with its own entry array. -/
inductive Entry where
  | file (name : String)
  | dir (name : String) (children : List Entry)

/-- The root `Tree` object: an insertion-ordered map from hostname to entry
array.  (JavaScript objects preserve insertion order for non-integer-like
string keys; hostnames produced by URL parsing are never canonical integers,
so an ordered association list is a faithful model.) -/
abbrev Tree := List (String × List Entry)

/-! ## URL pipeline: `encodeURI` -/

/-- Characters `encodeURI` leaves unescaped:
`A-Z a-z 0-9` and `- _ . ! ~ * ' ( ) ; / ? : @ & = + $ , #`
(code point 39 is the apostrophe). -/
def encodeURIUnescaped (c : Char) : Bool :=
  ('A' ≤ c && c ≤ 'Z') || ('a' ≤ c && c ≤ 'z') || ('0' ≤ c && c ≤ '9') ||
    ['-', '_', '.', '!', '~', '*', '(', ')', ';', '/', '?', ':', '@',
      '&', '=', '+', '$', ',', '#'].contains c ||
    c.toNat == 39

/-- UTF-8 bytes of a character (as `Nat`s below 256). -/
def utf8Bytes (c : Char) : List Nat :=
  let n := c.toNat
  if n < 0x80 then [n]
  else if n < 0x800 then [0xC0 + n / 0x40, 0x80 + n % 0x40]
  else if n < 0x10000 then
    [0xE0 + n / 0x1000, 0x80 + (n / 0x40) % 0x40, 0x80 + n % 0x40]
  else
    [0xF0 + n / 0x40000, 0x80 + (n / 0x1000) % 0x40,
      0x80 + (n / 0x40) % 0x40, 0x80 + n % 0x40]

/-- Uppercase hexadecimal digit, as produced by `encodeURI`. -/
def hexDigitChar (n : Nat) : Char :=
  if n < 10 then Char.ofNat (48 + n) else Char.ofNat (55 + n)

/-- A percent-escape `%HH` for one byte. -/
def percentEscape (b : Nat) : List Char :=
  ['%', hexDigitChar (b / 16), hexDigitChar (b % 16)]

def encodeURIChars : List Char → List Char
  | [] => []
  | c :: rest =>
    (if encodeURIUnescaped c then [c] else ((utf8Bytes c).map percentEscape).flatten) ++
      encodeURIChars rest

/-- JavaScript `encodeURI` (total on Lean strings: lone surrogates, the only
inputs on which the real one throws, cannot occur in a `String`). -/
def encodeURI (s : String) : String :=
  String.mk (encodeURIChars s.data)

/-! ## URL pipeline: `decodeURIComponent` -/

def hexVal? (c : Char) : Option Nat :=
  if '0' ≤ c && c ≤ '9' then some (c.toNat - 48)
  else if 'A' ≤ c && c ≤ 'F' then some (c.toNat - 55)
  else if 'a' ≤ c && c ≤ 'f' then some (c.toNat - 87)
  else none

/-- First pass of `decodeURIComponent`: turn each `%HH` escape into a raw
byte (`Sum.inl`), pass other characters through (`Sum.inr`); a `%` not
followed by two hex digits is a `URIError`. -/
def pctTokens : List Char → Option (List (Sum Nat Char))
  | [] => some []
  | '%' :: c1 :: c2 :: rest =>
    match hexVal? c1, hexVal? c2 with
    | some h, some l => (pctTokens rest).map (fun ts => Sum.inl (16 * h + l) :: ts)
    | _, _ => none
  | '%' :: _ => none
  | c :: rest => (pctTokens rest).map (fun ts => Sum.inr c :: ts)

/-- Second pass: reassemble runs of percent-decoded bytes as UTF-8
(rejecting overlong forms, surrogates and out-of-range code points, as the
real `decodeURIComponent` does). -/
def utf8Assemble : List (Sum Nat Char) → Option (List Char)
  | [] => some []
  | Sum.inr c :: rest => (utf8Assemble rest).map (c :: ·)
  | Sum.inl b :: rest =>
    if b < 0x80 then (utf8Assemble rest).map (Char.ofNat b :: ·)
    else if b < 0xC2 then none
    else if b < 0xE0 then
      match rest with
      | Sum.inl b2 :: rest2 =>
        if 0x80 ≤ b2 && b2 < 0xC0 then
          (utf8Assemble rest2).map (Char.ofNat ((b - 0xC0) * 0x40 + (b2 - 0x80)) :: ·)
        else none
      | _ => none
    else if b < 0xF0 then
      match rest with
      | Sum.inl b2 :: Sum.inl b3 :: rest2 =>
        if (0x80 ≤ b2 && b2 < 0xC0) && (0x80 ≤ b3 && b3 < 0xC0) then
          let n := (b - 0xE0) * 0x1000 + (b2 - 0x80) * 0x40 + (b3 - 0x80)
          if 0x800 ≤ n && (n < 0xD800 || 0xDFFF < n) then
            (utf8Assemble rest2).map (Char.ofNat n :: ·)
          else none
        else none
      | _ => none
    else if b < 0xF5 then
      match rest with
      | Sum.inl b2 :: Sum.inl b3 :: Sum.inl b4 :: rest2 =>
        if (0x80 ≤ b2 && b2 < 0xC0) && (0x80 ≤ b3 && b3 < 0xC0) &&
            (0x80 ≤ b4 && b4 < 0xC0) then
          let n := (b - 0xF0) * 0x40000 + (b2 - 0x80) * 0x1000 +
            (b3 - 0x80) * 0x40 + (b4 - 0x80)
          if 0x10000 ≤ n && n ≤ 0x10FFFF then
            (utf8Assemble rest2).map (Char.ofNat n :: ·)
          else none
        else none
      | _ => none
    else none

/-- JavaScript `decodeURIComponent`; `none` models a thrown `URIError`. -/
def decodeURIComponent (s : String) : Option String :=
  ((pctTokens s.data).bind utf8Assemble).map String.mk

/-! ## URL pipeline: `new URL(...)`

Modelled subset of the WHATWG URL parser, as exercised by the source: the
input it receives is always the output of `encodeURI`, hence ASCII with no
spaces or backslashes.  Within its subset — `scheme://[userinfo@]host[:port]`
with a host made of letters, digits, `-`, `.`, `_`, `~` that does not end
in a numeric label, and a decimal port of value at most 65535 — the model
agrees with `new URL`; everything outside the subset (IPv4/IPv6 hosts
needing canonicalisation, IDNA or percent-escapes in hosts, exotic
schemes) is conservatively rejected by the model rather than parsed.  The
concrete claims below stay inside the subset, and the universal claims
consume URL decompositions only through this function. -/

structure ParsedUrl where
  hostname : String
  pathname : String

def isSchemeStart (c : Char) : Bool :=
  ('A' ≤ c && c ≤ 'Z') || ('a' ≤ c && c ≤ 'z')

def isSchemeChar (c : Char) : Bool :=
  isSchemeStart c || ('0' ≤ c && c ≤ '9') || c == '+' || c == '-' || c == '.'

/-- Split off `scheme://`, returning the remainder. -/
def splitScheme (cs : List Char) : Option (List Char) :=
  let scheme := cs.takeWhile isSchemeChar
  match scheme, cs.drop scheme.length with
  | s0 :: _, ':' :: '/' :: '/' :: r => if isSchemeStart s0 then some r else none
  | _, _ => none

/-- Drop a leading `userinfo@` (everything up to the last `@`). -/
def afterLastAt (cs : List Char) : List Char :=
  match cs.reverse.span (fun c => c ≠ '@') with
  | (revHost, _) => revHost.reverse

def isHostChar (c : Char) : Bool :=
  ('A' ≤ c && c ≤ 'Z') || ('a' ≤ c && c ≤ 'z') || ('0' ≤ c && c ≤ '9') ||
    c == '-' || c == '.' || c == '_' || c == '~'

/-- JavaScript `"…".split('/')` on a character list. -/
def splitOnSlash : List Char → List (List Char)
  | [] => [[]]
  | c :: rest =>
    match splitOnSlash rest with
    | s :: ss => if c = '/' then [] :: s :: ss else (c :: s) :: ss
    | [] => [[]]

def splitOnDot : List Char → List (List Char)
  | [] => [[]]
  | c :: rest =>
    match splitOnDot rest with
    | s :: ss => if c = '.' then [] :: s :: ss else (c :: s) :: ss
    | [] => [[]]

/-- A label the WHATWG host parser reads as a number: all decimal digits
(nonempty), or `0x`/`0X` followed by hex digits. -/
def isNumericLabel (l : List Char) : Bool :=
  (!l.isEmpty && l.all Char.isDigit) ||
    (match l with
     | '0' :: x :: rest => (x == 'x' || x == 'X') && rest.all (fun c => (hexVal? c).isSome)
     | _ => false)

/-- WHATWG "ends in a number": the last non-empty dot-separated label is
numeric.  Such a host is handed to the IPv4 parser (with its own validity
and canonicalisation rules); the model keeps those hosts outside its
subset. -/
def endsInNumber (host : List Char) : Bool :=
  let labels := splitOnDot host
  let labels :=
    match labels.getLast? with
    | some [] => labels.dropLast
    | _ => labels
  match labels.getLast? with
  | some l => isNumericLabel l
  | none => false

/-- WHATWG path-state dot-segment handling: `..` pops a segment, `.` is
skipped, anything else (empty segments included) is appended. -/
def removeDotSegments (segs : List (List Char)) : List (List Char) :=
  segs.foldl
    (fun acc seg =>
      if seg = ['.', '.'] then acc.dropLast
      else if seg = ['.'] then acc
      else acc ++ [seg])
    []

def parseUrl (s : String) : Option ParsedUrl := do
  let r ← splitScheme s.data
  let authority := r.takeWhile (fun c => !(c == '/' || c == '?' || c == '#'))
  let afterAuth := r.drop authority.length
  let hostport := afterLastAt authority
  let host := hostport.takeWhile (fun c => c ≠ ':')
  match hostport.drop host.length with
  | [] => pure ()
  | ':' :: p =>
    if p.all Char.isDigit then
      if p.foldl (fun n c => n * 10 + (c.toNat - 48)) 0 ≤ 65535 then pure () else none
    else none
  | _ => none
  if host.isEmpty || !host.all isHostChar || endsInNumber host then none
  let pathname : List Char :=
    match afterAuth with
    | '/' :: rest =>
      let rtail := rest.takeWhile (fun c => !(c == '?' || c == '#'))
      '/' :: List.intercalate ['/'] (removeDotSegments (splitOnSlash rtail))
    | _ => ['/']
  return { hostname := String.mk (host.map Char.toLower), pathname := String.mk pathname }

/-! ## URL decomposition (lines 49–52 of `src/index.ts`) -/

/-- The check `item.fileUrl.endsWith('/')`, made on the raw, pre-encoding
string. -/
def endsWithSlash (s : String) : Bool :=
  s.data.getLast? == some '/'

/-- The decomposition performed per item inside `transformToTree`:
defensive `encodeURI`, `new URL`, trailing-slash check on the raw string,
split the pathname on `/`, drop empty segments, percent-decode each
remaining segment.  `none` models a thrown error (`new URL` → the
`MalformedUrlError` of the spec; an unreachable `decodeURIComponent`
failure is folded in as well). -/
def decomposeUrl (fileUrl : String) : Option (List String × Bool) :=
  match parseUrl (encodeURI fileUrl) with
  | none => none
  | some url =>
    match (((splitOnSlash url.pathname.data).map String.mk).filter
        (fun p => p ≠ "")).mapM decodeURIComponent with
    | none => none
    | some segs => some (url.hostname :: segs, endsWithSlash fileUrl)

/-! ## Tree builder (lines 54–83 of `src/index.ts`)

The source stores the tree in plain JavaScript objects and tests presence
by truthiness (`!currentTree[part]` at the root, `entry[part]` in the
directory find).  Plain objects inherit from `Object.prototype`, so those
tests are also truthy for its property names even when no own key exists;
this makes the builder partial: on such segment names the program either
skips work or throws a `TypeError`, and the model reproduces both. -/

/-- Property names every plain object inherits from `Object.prototype`,
all bound to truthy values (functions, or the prototype object itself for
`__proto__`); they satisfy the source's truthiness tests
`!currentTree[part]` and `entry[part]` on any plain object. -/
def protoProp (s : String) : Bool :=
  ["constructor", "hasOwnProperty", "isPrototypeOf", "propertyIsEnumerable",
    "toLocaleString", "toString", "valueOf", "__proto__", "__defineGetter__",
    "__defineSetter__", "__lookupGetter__", "__lookupSetter__"].contains s

/-- The file-entry test `typeof entry === 'string' && entry === part`
(string primitives: no prototype chain involved). -/
def isFileNamed (part : String) : Entry → Bool
  | .file name => name = part
  | .dir _ _ => false

/-- The directory lookup
`find(entry => typeof entry === 'object' && entry !== null && entry[part])`:
`entry[part]` is truthy for the entry's own single key (own values are
arrays, truthy even when empty) and also, through the prototype chain, for
every object entry when `part` names an `Object.prototype` property.
Returns the first hit's own key and children. -/
def findDirEntry : List Entry → String → Option (String × List Entry)
  | [], _ => none
  | .file _ :: es, part => findDirEntry es part
  | .dir name children :: es, part =>
    if name = part ∨ protoProp part = true then some (name, children)
    else findDirEntry es part

/-- Replace the children of the first entry the directory lookup hits
(the in-place mutation of the found object in the source). -/
def setFirstFound : List Entry → String → List Entry → List Entry
  | [], _, _ => []
  | .file n :: es, part, c => .file n :: setFirstFound es part c
  | .dir name children :: es, part, c =>
    if name = part ∨ protoProp part = true then .dir name c :: es
    else .dir name children :: setFirstFound es part c

/-- The walk over `parts[1…]` of one item (the `parts.forEach` body for
`index ≥ 1`); `none` models a thrown `TypeError`.  Intermediate segments
and a trailing-slash last segment go through the directory lookup: a hit
at the last segment adds nothing; a hit on the way down is descended into
only when its own key really is the segment — otherwise the next
iteration calls `.find` on an inherited non-array and throws; a miss
appends a fresh `{part: []}` (an own key even for names like
`__proto__`, since the source uses a computed key).  A non-directory last
segment is a file, appended unless already present. -/
def insertParts : List Entry → List String → Bool → Option (List Entry)
  | es, [], _ => some es
  | es, [part], isDirectoryUrl =>
    if isDirectoryUrl then
      match findDirEntry es part with
      | some _ => some es
      | none => some (es ++ [.dir part []])
    else
      if es.any (isFileNamed part) then some es
      else some (es ++ [.file part])
  | es, part :: next :: rest, isDirectoryUrl =>
    match findDirEntry es part with
    | some (name, children) =>
      if name = part then
        (insertParts children (next :: rest) isDirectoryUrl).map (setFirstFound es part)
      else none
    | none =>
      (insertParts [] (next :: rest) isDirectoryUrl).map
        (fun c => es ++ [.dir part c])

def rootFind (tree : Tree) (host : String) : Option (List Entry) :=
  match tree with
  | [] => none
  | (name, es) :: t => if name = host then some es else rootFind t host

def rootSet : Tree → String → List Entry → Tree
  | [], _, _ => []
  | (name, es) :: t, host, newEs =>
    if name = host then (name, newEs) :: t else (name, es) :: rootSet t host newEs

/-- One item's insertion; `none` models a thrown `TypeError`.  Segment 0
(the hostname) keys the root object: `!tree[host]` initialises an empty
entry array when absent — but when the hostname names an
`Object.prototype` property the test is truthy via the prototype chain, so
initialisation is skipped: with no further segments the item is silently
dropped, and with further segments the next iteration calls `.find` on
the inherited non-array value and throws. -/
def insertItem (tree : Tree) (parts : List String) (isDirectoryUrl : Bool) :
    Option Tree :=
  match parts with
  | [] => some tree
  | host :: rest =>
    if protoProp host then
      match rest with
      | [] => some tree
      | _ :: _ => none
    else
      match rootFind tree host with
      | some es => (insertParts es rest isDirectoryUrl).map (rootSet tree host)
      | none => (insertParts [] rest isDirectoryUrl).map (fun es => tree ++ [(host, es)])

/-- An error thrown inside the `items.forEach` loop: a `new URL` (or
decode) failure, or the prototype-chain `TypeError` of `insertItem`. -/
inductive JsError where
  | malformedUrl (fileUrl : String)
  | typeError

/-- The body of the `items.forEach` loop as one step of a fold: decompose
the item's URL and insert it, or abort with the thrown error. -/
def buildStep (tree : Tree) (item : Item) : Except JsError Tree :=
  match decomposeUrl item.fileUrl with
  | some (parts, isDirectoryUrl) =>
    match insertItem tree parts isDirectoryUrl with
    | some t1 => .ok t1
    | none => .error .typeError
  | none => .error (.malformedUrl item.fileUrl)

/-- The fold over a suffix of the item list, from an intermediate tree. -/
def buildFrom (tree : Tree) (items : List Item) : Except JsError Tree :=
  items.foldlM buildStep tree

/-- Function `transformToTree` (lines 45–88): left fold of `insertItem`
over the items, starting from the empty tree; a thrown error anywhere
aborts the whole build with that error. -/
def transformToTree (items : List Item) : Except JsError Tree :=
  buildFrom [] items

/-! ## Derived specification notions

Presence of a decomposed item in a tree, name-uniqueness properties of a
tree, the "grows only by appending" embedding between trees, and node
lookup by directory path. -/

/-- The walk of `insertParts` as a pure test: does this entry array
already hold the item with the given remaining segments, with every
directory lookup on the way hitting an entry whose own key is the
segment? -/
def containsParts : List Entry → List String → Bool → Bool
  | _, [], _ => true
  | es, [part], isDir =>
    if isDir then (findDirEntry es part).isSome else es.any (isFileNamed part)
  | es, part :: next :: rest, isDir =>
    match findDirEntry es part with
    | some (name, children) =>
      if name = part then containsParts children (next :: rest) isDir else false
    | none => false

/-- Does the tree already hold the item decomposed as `parts`/`isDir`, in
the sense that re-inserting it is a successful no-op?  (A hostname naming
an `Object.prototype` property with no further segments is always a
no-op.) -/
def containsItem (t : Tree) (parts : List String) (isDir : Bool) : Bool :=
  match parts with
  | [] => true
  | host :: rest =>
    if protoProp host then rest.isEmpty
    else
      match rootFind t host with
      | some es => containsParts es rest isDir
      | none => false

/-- The name an entry bears, file or subdirectory alike. -/
def entryName : Entry → String
  | .file n => n
  | .dir n _ => n

/-- An entry's kind (`true` for a subdirectory) together with its name. -/
def nameKind : Entry → Bool × String
  | .file n => (false, n)
  | .dir n _ => (true, n)

/-- Boolean "no duplicates" on a list of strings. -/
def nodupB : List String → Bool
  | [] => true
  | x :: xs => !(xs.contains x) && nodupB xs

/-- Names of the subdirectory entries of one entry array. -/
def dirNames (es : List Entry) : List String :=
  es.filterMap fun e => match e with | .dir n _ => some n | .file _ => none

/-- Names of the file entries of one entry array. -/
def fileNames (es : List Entry) : List String :=
  es.filterMap fun e => match e with | .file n => some n | .dir _ _ => none

mutual

/-- Per-kind uniqueness inside an entry, recursively. -/
def entryOk : Entry → Bool
  | .file _ => true
  | .dir _ children =>
    nodupB (dirNames children) && nodupB (fileNames children) && entriesOk children

/-- Per-kind uniqueness inside every entry of an array. -/
def entriesOk : List Entry → Bool
  | [] => true
  | e :: es => entryOk e && entriesOk es

end

/-- Per-kind uniqueness at one node and below: no two subdirectory entries
and no two file entries of this array share a name, recursively. -/
def nodeOk (es : List Entry) : Bool :=
  nodupB (dirNames es) && nodupB (fileNames es) && entriesOk es

/-- Per-kind uniqueness everywhere in the tree, root keys included. -/
def treeOk (t : Tree) : Bool :=
  nodupB (t.map Prod.fst) && t.all fun kv => nodeOk kv.2

mutual

/-- Single-namespace uniqueness inside an entry (the spec's stricter §3
invariant): no two entries of one array — file or subdirectory — share a
name. -/
def entryNamesUnique : Entry → Bool
  | .file _ => true
  | .dir _ children => nodupB (children.map entryName) && entriesNamesUnique children

/-- Single-namespace uniqueness inside every entry of an array. -/
def entriesNamesUnique : List Entry → Bool
  | [] => true
  | e :: es => entryNamesUnique e && entriesNamesUnique es

end

/-- Single-namespace uniqueness everywhere in the tree. -/
def treeNamesUnique (t : Tree) : Bool :=
  nodupB (t.map Prod.fst) &&
    t.all fun kv => nodupB (kv.2.map entryName) && entriesNamesUnique kv.2

mutual

/-- Relation `EntryEmb e e1`: `e1` is `e` with material only added — same
name and kind, and for subdirectories the children array of `e` embedded
in that of `e1`. -/
inductive EntryEmb : Entry → Entry → Prop
  | file (n : String) : EntryEmb (.file n) (.file n)
  | dir (n : String) (c1 c2 : List Entry) :
      EntriesEmb c1 c2 → EntryEmb (.dir n c1) (.dir n c2)

/-- Relation `EntriesEmb es es1`: the array `es1` extends `es` — position
by position the old entries are embedded, with new entries only appended
at the end. -/
inductive EntriesEmb : List Entry → List Entry → Prop
  | nil (es : List Entry) : EntriesEmb [] es
  | cons (e1 e2 : Entry) (t1 t2 : List Entry) :
      EntryEmb e1 e2 → EntriesEmb t1 t2 → EntriesEmb (e1 :: t1) (e2 :: t2)

end

/-- Relation `TreeEmb t t1`: the root object `t1` extends `t` — the old
hostname keys in their old order, each entry array extended, new keys only
appended at the end. -/
inductive TreeEmb : Tree → Tree → Prop
  | nil (t : Tree) : TreeEmb [] t
  | cons (h : String) (es1 es2 : List Entry) (t1 t2 : Tree) :
      EntriesEmb es1 es2 → TreeEmb t1 t2 → TreeEmb ((h, es1) :: t1) ((h, es2) :: t2)

/-- The children of the first subdirectory entry with own key `part`
(specification-side node addressing, used to locate a node; in trees
satisfying `nodeOk` the hit is the unique subdirectory of that name). -/
def findDirNamed : List Entry → String → Option (List Entry)
  | [], _ => none
  | .file _ :: es, part => findDirNamed es part
  | .dir name children :: es, part =>
    if name = part then some children else findDirNamed es part

/-- Descend from an entry array along a list of subdirectory names. -/
def lookupNode : List Entry → List String → Option (List Entry)
  | es, [] => some es
  | es, p :: ps =>
    match findDirNamed es p with
    | some c => lookupNode c ps
    | none => none

/-- The entry array of the node at `host :: dirs`, when it exists. -/
def lookupTreeNode (t : Tree) : List String → Option (List Entry)
  | [] => none
  | host :: dirs =>
    match rootFind t host with
    | some es => lookupNode es dirs
    | none => none

/-! ## Cache manager (lines 24–42 and 94–129 of `src/index.ts`) -/

/-- The snapshot record `{ tree: Tree, timestamp: number }`. -/
structure CacheSnapshot where
  tree : Tree
  timestamp : Int

/-- The global `cache` variable: `{tree, timestamp} | null`. -/
abbrev CacheState := Option CacheSnapshot

def CACHE_DURATION_MS : Int := 60000

/-- Outcome of the one upstream `axios.get` call, as observed by the code:
a resolved response carrying `items`, or a rejection carrying a response
status, a request with no response, or neither. -/
inductive UpstreamOutcome where
  | items (l : List Item)
  | errStatus (status : Nat)
  | errNoResponse
  | errOther

/-- What the `catch` blocks can classify: `error.response.status`,
`error.request` with no response, or neither (this last also covers a
`MalformedUrlError` or `TypeError` thrown by `transformToTree`). -/
inductive FetchError where
  | status (s : Nat)
  | noResponse
  | other

/-- Function `fetchDataAndTransform` (lines 16–22): fetch the items and
build the tree; any rejection or thrown error propagates. -/
def fetchDataAndTransform : UpstreamOutcome → Except FetchError Tree
  | .items l =>
    match transformToTree l with
    | .ok t => .ok t
    | .error _ => .error .other
  | .errStatus s => .error (.status s)
  | .errNoResponse => .error .noResponse
  | .errOther => .error .other

/-- The `catch` block of the `/api/files` handler (lines 112–128):
`error.response` → its status chooses 504, 502 or 500; `error.request`
with no response → 502; anything else → 500. -/
def classifyStatus : FetchError → Nat
  | .status s => if s = 504 then 504 else if s = 502 then 502 else 500
  | .noResponse => 502
  | .other => 500

/-- Observable outcome of one `/api/files` request: the cache variable
afterwards, the HTTP status, the tree sent (when any), and whether
`fetchDataAndTransform` was invoked. -/
structure GetResult where
  cacheAfter : CacheState
  status : Nat
  body : Option Tree
  fetched : Bool

/-- Lines 102–128: fetch new data; on success publish it as the new cache
and send it, on failure leave the cache as it was and send the classified
error status. -/
def rebuildAndRespond (cache : CacheState) (now : Int) (upstream : UpstreamOutcome) :
    GetResult :=
  match fetchDataAndTransform upstream with
  | .ok data =>
    { cacheAfter := some ⟨data, now⟩, status := 200, body := some data, fetched := true }
  | .error e =>
    { cacheAfter := cache, status := classifyStatus e, body := none, fetched := true }

/-- The `/api/files` handler (lines 94–129): serve from cache when it
exists and is younger than `CACHE_DURATION_MS`, otherwise rebuild. -/
def handleGetFiles (cache : CacheState) (now : Int) (upstream : UpstreamOutcome) :
    GetResult :=
  match cache with
  | some snap =>
    if now - snap.timestamp < CACHE_DURATION_MS then
      { cacheAfter := cache, status := 200, body := some snap.tree, fetched := false }
    else rebuildAndRespond cache now upstream
  | none => rebuildAndRespond cache now upstream

/-- Function `updateCache` (lines 29–42, the background refresher's step):
publish a new snapshot on success; on failure only log, keeping the old
cache. -/
def updateCache (cache : CacheState) (now : Int) (upstream : UpstreamOutcome) :
    CacheState :=
  match fetchDataAndTransform upstream with
  | .ok t => some { tree := t, timestamp := now }
  | .error _ => cache

/-! ## Lemmas: root object lookup and update -/


theorem rootFind_append (t t' : Tree) (host : String) :
    rootFind (t ++ t') host =
      match rootFind t host with
      | some es => some es
      | none => rootFind t' host := by
  induction t with
  | nil => simp [rootFind]
  | cons kv rest ih =>
    obtain ⟨name, es⟩ := kv
    by_cases h : name = host <;> simp [rootFind, h, ih]

theorem rootFind_eq_none (t : Tree) (host : String) :
    rootFind t host = none ↔ host ∉ t.map Prod.fst := by
  induction t with
  | nil => simp [rootFind]
  | cons kv rest ih =>
    obtain ⟨name, es⟩ := kv
    by_cases h : name = host <;>
      simp [rootFind, h, ih, eq_comm (a := host) (b := name)]

theorem rootSet_self (t : Tree) (host : String) (es : List Entry)
    (h : rootFind t host = some es) : rootSet t host es = t := by
  induction t with
  | nil => simp [rootFind] at h
  | cons kv rest ih =>
    obtain ⟨name, es'⟩ := kv
    by_cases hn : name = host
    · simp only [rootFind, if_pos hn] at h
      obtain rfl := Option.some.inj h
      simp [rootSet, hn]
    · simp only [rootFind, if_neg hn] at h
      simp [rootSet, hn, ih h]

theorem rootFind_set (t : Tree) (host : String) (es : List Entry)
    (h : (rootFind t host).isSome) : rootFind (rootSet t host es) host = some es := by
  induction t with
  | nil => simp [rootFind] at h
  | cons kv rest ih =>
    obtain ⟨name, es'⟩ := kv
    by_cases hn : name = host
    · simp [rootSet, rootFind, hn]
    · simp only [rootFind, if_neg hn] at h
      simp [rootSet, rootFind, hn, ih h]

theorem rootSet_map_fst (t : Tree) (host : String) (es : List Entry) :
    (rootSet t host es).map Prod.fst = t.map Prod.fst := by
  induction t with
  | nil => rfl
  | cons kv rest ih =>
    obtain ⟨name, es'⟩ := kv
    by_cases hn : name = host
    · simp [rootSet, hn]
    · simp [rootSet, hn, ih]

/-! ## Lemmas: list and uniqueness basics -/


theorem dirNames_append (es es' : List Entry) :
    dirNames (es ++ es') = dirNames es ++ dirNames es' := by
  simp [dirNames, List.filterMap_append]

theorem fileNames_append (es es' : List Entry) :
    fileNames (es ++ es') = fileNames es ++ fileNames es' := by
  simp [fileNames, List.filterMap_append]

theorem entriesOk_append (a b : List Entry) :
    entriesOk (a ++ b) = (entriesOk a && entriesOk b) := by
  induction a with
  | nil => simp [entriesOk]
  | cons e t ih => simp [entriesOk, ih, Bool.and_assoc]

theorem nodupB_iff (l : List String) : nodupB l = true ↔ l.Nodup := by
  induction l with
  | nil => simp [nodupB]
  | cons x t ih => simp [nodupB, List.nodup_cons, ih, List.contains, List.elem_iff]

theorem nodupB_append_singleton (l : List String) (x : String) (hx : x ∉ l)
    (h : nodupB l = true) : nodupB (l ++ [x]) = true := by
  rw [nodupB_iff] at h ⊢
  refine h.append (List.nodup_singleton x) ?_
  intro a ha hb
  rw [List.mem_singleton] at hb
  exact hx (hb ▸ ha)

theorem any_isFileNamed_iff (es : List Entry) (part : String) :
    es.any (isFileNamed part) = true ↔ part ∈ fileNames es := by
  induction es with
  | nil => simp [fileNames]
  | cons e t ih =>
    cases e with
    | file n =>
      by_cases hn : n = part <;>
        simp [isFileNamed, fileNames, hn, ih, eq_comm (a := part) (b := n)]
    | dir n c => simp [isFileNamed, fileNames, ih]

theorem nodeOk_parts (es : List Entry) (h : nodeOk es = true) :
    nodupB (dirNames es) = true ∧ nodupB (fileNames es) = true ∧ entriesOk es = true := by
  simpa [nodeOk, Bool.and_eq_true, and_assoc] using h

theorem treeOk_parts (t : Tree) (h : treeOk t = true) :
    nodupB (t.map Prod.fst) = true ∧ (t.all fun kv => nodeOk kv.2) = true := by
  simpa [treeOk, Bool.and_eq_true] using h

theorem treeAll_nodeOk (t : Tree) (host : String) (es : List Entry)
    (ha : (t.all fun kv => nodeOk kv.2) = true) (hf : rootFind t host = some es) :
    nodeOk es = true := by
  induction t with
  | nil => simp [rootFind] at hf
  | cons kv rest ih =>
    obtain ⟨name, es0⟩ := kv
    simp only [List.all_cons, Bool.and_eq_true] at ha
    by_cases hn : name = host
    · simp only [rootFind, if_pos hn] at hf
      obtain rfl := Option.some.inj hf
      exact ha.1
    · simp only [rootFind, if_neg hn] at hf
      exact ih ha.2 hf

theorem treeAll_rootSet (t : Tree) (host : String) (es' : List Entry)
    (ha : (t.all fun kv => nodeOk kv.2) = true) (h : nodeOk es' = true) :
    ((rootSet t host es').all fun kv => nodeOk kv.2) = true := by
  induction t with
  | nil => rfl
  | cons kv rest ih =>
    obtain ⟨name, es0⟩ := kv
    simp only [List.all_cons, Bool.and_eq_true] at ha
    by_cases hn : name = host
    · simp only [rootSet, if_pos hn, List.all_cons, Bool.and_eq_true]
      exact ⟨h, ha.2⟩
    · simp only [rootSet, if_neg hn, List.all_cons, Bool.and_eq_true]
      exact ⟨ha.1, ih ha.2⟩

/-! ## Lemmas: the embedding relations -/


mutual

theorem entryEmb_refl : ∀ e : Entry, EntryEmb e e
  | .file n => .file n
  | .dir n c => .dir n c c (entriesEmb_refl c)

theorem entriesEmb_refl : ∀ es : List Entry, EntriesEmb es es
  | [] => .nil []
  | e :: es => .cons e e es es (entryEmb_refl e) (entriesEmb_refl es)

end

mutual

theorem entryEmb_trans : ∀ {a b c : Entry}, EntryEmb a b → EntryEmb b c → EntryEmb a c
  | _, _, _, .file _, h2 => h2
  | _, _, _, .dir n c1 c2 h12, .dir _ _ c3 h23 => .dir n c1 c3 (entriesEmb_trans h12 h23)

theorem entriesEmb_trans :
    ∀ {a b c : List Entry}, EntriesEmb a b → EntriesEmb b c → EntriesEmb a c
  | _, _, _, .nil _, _ => .nil _
  | _, _, _, .cons e1 e2 t1 t2 he ht, .cons _ e3 _ t3 he' ht' =>
    .cons e1 e3 t1 t3 (entryEmb_trans he he') (entriesEmb_trans ht ht')

end

theorem entriesEmb_append_right (es es' : List Entry) : EntriesEmb es (es ++ es') := by
  induction es with
  | nil => exact .nil es'
  | cons e t ih => exact .cons e e t (t ++ es') (entryEmb_refl e) ih

theorem treeEmb_refl (t : Tree) : TreeEmb t t := by
  induction t with
  | nil => exact .nil []
  | cons kv rest ih =>
    obtain ⟨name, es⟩ := kv
    exact .cons name es es rest rest (entriesEmb_refl es) ih

theorem treeEmb_trans : ∀ {a b c : Tree}, TreeEmb a b → TreeEmb b c → TreeEmb a c
  | _, _, _, .nil _, _ => .nil _
  | _, _, _, .cons h es1 es2 t1 t2 he ht, .cons _ _ es3 _ t3 he' ht' =>
    .cons h es1 es3 t1 t3 (entriesEmb_trans he he') (treeEmb_trans ht ht')

theorem treeEmb_append_right (t t' : Tree) : TreeEmb t (t ++ t') := by
  induction t with
  | nil => exact .nil t'
  | cons kv rest ih =>
    obtain ⟨name, es⟩ := kv
    exact .cons name es es rest (rest ++ t') (entriesEmb_refl es) ih

theorem treeEmb_rootSet (t : Tree) (host : String) (es es' : List Entry)
    (h : rootFind t host = some es) (he : EntriesEmb es es') :
    TreeEmb t (rootSet t host es') := by
  induction t with
  | nil => simp [rootFind] at h
  | cons kv rest ih =>
    obtain ⟨name, es0⟩ := kv
    by_cases hn : name = host
    · simp only [rootFind, if_pos hn] at h
      obtain rfl := Option.some.inj h
      simp only [rootSet, if_pos hn]
      exact hn ▸ .cons name es0 es' rest rest he (treeEmb_refl rest)
    · simp only [rootFind, if_neg hn] at h
      simp only [rootSet, if_neg hn]
      exact .cons name es0 es0 rest _ (entriesEmb_refl es0) (ih h)

theorem any_isFileNamed_emb (es : List Entry) (part : String)
    (ha : es.any (isFileNamed part) = true) :
    ∀ {es' : List Entry}, EntriesEmb es es' → es'.any (isFileNamed part) = true := by
  induction es with
  | nil => simp at ha
  | cons e t ih =>
    intro es' h
    cases h with
    | cons e1 e2 t1 t2 he ht =>
      simp only [List.any_cons, Bool.or_eq_true] at ha ⊢
      cases ha with
      | inl hone =>
        left
        cases he with
        | file n => exact hone
        | dir n c1 c2 hc => simp [isFileNamed] at hone
      | inr hrest => exact Or.inr (ih hrest ht)

/-! ## Lemmas: the truthiness-based directory lookup and update -/

theorem findDirEntry_append (es es2 : List Entry) (part : String) :
    findDirEntry (es ++ es2) part =
      match findDirEntry es part with
      | some r => some r
      | none => findDirEntry es2 part := by
  induction es with
  | nil => simp [findDirEntry]
  | cons e t ih =>
    cases e with
    | file n => simpa [findDirEntry] using ih
    | dir n c =>
      by_cases h : n = part ∨ protoProp part = true <;> simp [findDirEntry, h, ih]

theorem findDirEntry_none_not_dirName (es : List Entry) (part : String)
    (h : findDirEntry es part = none) : part ∉ dirNames es := by
  induction es with
  | nil => simp [dirNames]
  | cons e t ih =>
    cases e with
    | file n =>
      simp only [findDirEntry] at h
      simpa [dirNames] using ih h
    | dir n c =>
      by_cases hn : n = part ∨ protoProp part = true
      · simp [findDirEntry, hn] at h
      · simp only [findDirEntry, if_neg hn] at h
        have hne : ¬part = n := fun hq => hn (Or.inl hq.symm)
        simpa [dirNames, hne] using ih h

theorem setFirstFound_self (es : List Entry) (part name : String) (c : List Entry)
    (h : findDirEntry es part = some (name, c)) : setFirstFound es part c = es := by
  induction es with
  | nil => simp [findDirEntry] at h
  | cons e t ih =>
    cases e with
    | file n =>
      simp only [findDirEntry] at h
      simp [setFirstFound, ih h]
    | dir n ch =>
      by_cases hn : n = part ∨ protoProp part = true
      · simp only [findDirEntry, if_pos hn] at h
        have hpair := Option.some.inj h
        rw [Prod.mk.injEq] at hpair
        obtain ⟨rfl, rfl⟩ := hpair
        simp [setFirstFound, hn]
      · simp only [findDirEntry, if_neg hn] at h
        simp [setFirstFound, hn, ih h]

theorem findDirEntry_set (es : List Entry) (part name : String) (c0 c : List Entry)
    (h : findDirEntry es part = some (name, c0)) :
    findDirEntry (setFirstFound es part c) part = some (name, c) := by
  induction es with
  | nil => simp [findDirEntry] at h
  | cons e t ih =>
    cases e with
    | file n =>
      simp only [findDirEntry] at h
      simp [setFirstFound, findDirEntry, ih h]
    | dir n ch =>
      by_cases hn : n = part ∨ protoProp part = true
      · simp only [findDirEntry, if_pos hn] at h
        have hpair := Option.some.inj h
        rw [Prod.mk.injEq] at hpair
        obtain ⟨rfl, rfl⟩ := hpair
        simp [setFirstFound, findDirEntry, hn]
      · simp only [findDirEntry, if_neg hn] at h
        simp [setFirstFound, findDirEntry, hn, ih h]

theorem dirNames_setFirstFound (es : List Entry) (part : String) (c : List Entry) :
    dirNames (setFirstFound es part c) = dirNames es := by
  induction es with
  | nil => rfl
  | cons e t ih =>
    cases e with
    | file n =>
      simp only [setFirstFound]
      simpa [dirNames] using ih
    | dir n ch =>
      by_cases hn : n = part ∨ protoProp part = true
      · simp [setFirstFound, hn, dirNames]
      · simp only [setFirstFound, if_neg hn]
        simpa [dirNames] using ih

theorem fileNames_setFirstFound (es : List Entry) (part : String) (c : List Entry) :
    fileNames (setFirstFound es part c) = fileNames es := by
  induction es with
  | nil => rfl
  | cons e t ih =>
    cases e with
    | file n =>
      simp only [setFirstFound]
      simpa [fileNames] using ih
    | dir n ch =>
      by_cases hn : n = part ∨ protoProp part = true
      · simp [setFirstFound, hn, fileNames]
      · simp only [setFirstFound, if_neg hn]
        simpa [fileNames] using ih

theorem entriesEmb_setFirstFound (es : List Entry) (part name : String)
    (c0 c : List Entry) (h : findDirEntry es part = some (name, c0))
    (hc : EntriesEmb c0 c) : EntriesEmb es (setFirstFound es part c) := by
  induction es with
  | nil => simp [findDirEntry] at h
  | cons e t ih =>
    cases e with
    | file n =>
      simp only [findDirEntry] at h
      simp only [setFirstFound]
      exact .cons _ _ _ _ (entryEmb_refl _) (ih h)
    | dir n ch =>
      by_cases hn : n = part ∨ protoProp part = true
      · simp only [findDirEntry, if_pos hn] at h
        have hpair := Option.some.inj h
        rw [Prod.mk.injEq] at hpair
        obtain ⟨rfl, rfl⟩ := hpair
        simp only [setFirstFound, if_pos hn]
        exact .cons _ _ _ _ (.dir n ch c hc) (entriesEmb_refl t)
      · simp only [findDirEntry, if_neg hn] at h
        simp only [setFirstFound, if_neg hn]
        exact .cons _ _ _ _ (entryEmb_refl _) (ih h)

theorem findDirEntry_emb (es : List Entry) (part : String) :
    ∀ {name : String} {c es2 : List Entry},
      findDirEntry es part = some (name, c) → EntriesEmb es es2 →
      ∃ c2, findDirEntry es2 part = some (name, c2) ∧ EntriesEmb c c2 := by
  induction es with
  | nil => intro name c es2 hf _; simp [findDirEntry] at hf
  | cons e t ih =>
    intro name c es2 hf h
    cases h with
    | cons e1 e2 t1 t2 he ht =>
      cases he with
      | file n =>
        simp only [findDirEntry] at hf ⊢
        exact ih hf ht
      | dir n c1 c2 hc =>
        by_cases hn : n = part ∨ protoProp part = true
        · simp only [findDirEntry, if_pos hn] at hf ⊢
          have hpair := Option.some.inj hf
          rw [Prod.mk.injEq] at hpair
          obtain ⟨rfl, rfl⟩ := hpair
          exact ⟨c2, rfl, hc⟩
        · simp only [findDirEntry, if_neg hn] at hf ⊢
          exact ih hf ht

theorem entriesOk_findDirEntry (es : List Entry) (part : String) :
    ∀ {name : String} {c : List Entry}, entriesOk es = true →
      findDirEntry es part = some (name, c) → nodeOk c = true := by
  induction es with
  | nil => intro name c _ hf; simp [findDirEntry] at hf
  | cons e t ih =>
    intro name c he hf
    simp only [entriesOk, Bool.and_eq_true] at he
    cases e with
    | file n =>
      simp only [findDirEntry] at hf
      exact ih he.2 hf
    | dir n ch =>
      by_cases hn : n = part ∨ protoProp part = true
      · simp only [findDirEntry, if_pos hn] at hf
        have hpair := Option.some.inj hf
        rw [Prod.mk.injEq] at hpair
        obtain ⟨rfl, rfl⟩ := hpair
        simpa [entryOk, nodeOk] using he.1
      · simp only [findDirEntry, if_neg hn] at hf
        exact ih he.2 hf

theorem entriesOk_setFirstFound (es : List Entry) (part : String) (c : List Entry)
    (he : entriesOk es = true) (hc : nodeOk c = true) :
    entriesOk (setFirstFound es part c) = true := by
  induction es with
  | nil => rfl
  | cons e t ih =>
    simp only [entriesOk, Bool.and_eq_true] at he
    cases e with
    | file n =>
      simp only [setFirstFound, entriesOk, Bool.and_eq_true]
      exact ⟨he.1, ih he.2⟩
    | dir n ch =>
      by_cases hn : n = part ∨ protoProp part = true
      · simp only [setFirstFound, if_pos hn, entriesOk, Bool.and_eq_true]
        exact ⟨by simpa [entryOk, nodeOk] using hc, he.2⟩
      · simp only [setFirstFound, if_neg hn, entriesOk, Bool.and_eq_true]
        exact ⟨he.1, ih he.2⟩

/-! ## Lemmas: the insertion walk — growth, containment, idempotence -/

theorem entriesEmb_insertParts :
    ∀ (parts : List String) (es : List Entry) (d : Bool) (es2 : List Entry),
      insertParts es parts d = some es2 → EntriesEmb es es2
  | [], es, _, es2, h => by
    obtain rfl := Option.some.inj h
    exact entriesEmb_refl es
  | [part], es, d, es2, h => by
    cases d
    · simp only [insertParts, Bool.false_eq_true, if_false] at h
      by_cases ha : es.any (isFileNamed part) = true
      · rw [if_pos ha] at h
        obtain rfl := Option.some.inj h
        exact entriesEmb_refl es
      · rw [if_neg ha] at h
        obtain rfl := Option.some.inj h
        exact entriesEmb_append_right es [.file part]
    · simp only [insertParts, if_true] at h
      cases hf : findDirEntry es part with
      | some r =>
        rw [hf] at h
        obtain rfl := Option.some.inj h
        exact entriesEmb_refl es
      | none =>
        rw [hf] at h
        obtain rfl := Option.some.inj h
        exact entriesEmb_append_right es [.dir part []]
  | part :: next :: rest, es, d, es2, h => by
    simp only [insertParts] at h
    cases hf : findDirEntry es part with
    | some r =>
      obtain ⟨name, children⟩ := r
      rw [hf] at h
      have h2 : (if name = part then
          Option.map (setFirstFound es part) (insertParts children (next :: rest) d)
        else none) = some es2 := h
      by_cases hn : name = part
      · rw [if_pos hn] at h2
        cases hi : insertParts children (next :: rest) d with
        | some c =>
          rw [hi, Option.map_some'] at h2
          obtain rfl := Option.some.inj h2
          exact entriesEmb_setFirstFound es part name children c hf
            (entriesEmb_insertParts (next :: rest) children d c hi)
        | none => rw [hi] at h2; cases h2
      · rw [if_neg hn] at h2; cases h2
    | none =>
      rw [hf] at h
      have h2 : Option.map (fun c => es ++ [Entry.dir part c])
          (insertParts [] (next :: rest) d) = some es2 := h
      cases hi : insertParts [] (next :: rest) d with
      | some c =>
        rw [hi, Option.map_some'] at h2
        obtain rfl := Option.some.inj h2
        exact entriesEmb_append_right es _
      | none => rw [hi] at h2; cases h2

theorem containsParts_emb :
    ∀ (parts : List String) {es es2 : List Entry} {d : Bool},
      EntriesEmb es es2 → containsParts es parts d = true →
      containsParts es2 parts d = true
  | [], _, _, _, _, _ => rfl
  | [part], es, es2, d, h, hc => by
    cases d
    · simp only [containsParts, Bool.false_eq_true, if_false] at hc ⊢
      exact any_isFileNamed_emb es part hc h
    · simp only [containsParts, if_true] at hc ⊢
      cases hf : findDirEntry es part with
      | some r =>
        obtain ⟨name, c⟩ := r
        obtain ⟨c2, hf2, _⟩ := findDirEntry_emb es part hf h
        simp [hf2]
      | none => simp [hf] at hc
  | part :: next :: rest, es, es2, d, h, hc => by
    simp only [containsParts] at hc ⊢
    cases hf : findDirEntry es part with
    | some r =>
      obtain ⟨name, c⟩ := r
      rw [hf] at hc
      have hc2 : (if name = part then containsParts c (next :: rest) d
          else false) = true := hc
      obtain ⟨c2, hf2, hcc⟩ := findDirEntry_emb es part hf h
      rw [hf2]
      show (if name = part then containsParts c2 (next :: rest) d else false) = true
      by_cases hn : name = part
      · rw [if_pos hn] at hc2 ⊢
        exact containsParts_emb (next :: rest) hcc hc2
      · rw [if_neg hn] at hc2; cases hc2
    | none => rw [hf] at hc; cases hc

theorem containsParts_insertParts :
    ∀ (parts : List String) (es : List Entry) (d : Bool) (es2 : List Entry),
      insertParts es parts d = some es2 → containsParts es2 parts d = true
  | [], _, _, _, _ => rfl
  | [part], es, d, es2, h => by
    cases d
    · simp only [insertParts, Bool.false_eq_true, if_false] at h
      simp only [containsParts, Bool.false_eq_true, if_false]
      by_cases ha : es.any (isFileNamed part) = true
      · rw [if_pos ha] at h
        obtain rfl := Option.some.inj h
        exact ha
      · rw [if_neg ha] at h
        obtain rfl := Option.some.inj h
        simp [List.any_append, isFileNamed]
    · simp only [insertParts, if_true] at h
      simp only [containsParts, if_true]
      cases hf : findDirEntry es part with
      | some r =>
        rw [hf] at h
        obtain rfl := Option.some.inj h
        simp [hf]
      | none =>
        rw [hf] at h
        obtain rfl := Option.some.inj h
        rw [findDirEntry_append, hf]
        simp [findDirEntry]
  | part :: next :: rest, es, d, es2, h => by
    simp only [insertParts] at h
    simp only [containsParts]
    cases hf : findDirEntry es part with
    | some r =>
      obtain ⟨name, children⟩ := r
      rw [hf] at h
      have h2 : (if name = part then
          Option.map (setFirstFound es part) (insertParts children (next :: rest) d)
        else none) = some es2 := h
      by_cases hn : name = part
      · rw [if_pos hn] at h2
        cases hi : insertParts children (next :: rest) d with
        | some c =>
          rw [hi, Option.map_some'] at h2
          obtain rfl := Option.some.inj h2
          rw [findDirEntry_set es part name children c hf]
          show (if name = part then containsParts c (next :: rest) d else false) = true
          rw [if_pos hn]
          exact containsParts_insertParts (next :: rest) children d c hi
        | none => rw [hi] at h2; cases h2
      · rw [if_neg hn] at h2; cases h2
    | none =>
      rw [hf] at h
      have h2 : Option.map (fun c => es ++ [Entry.dir part c])
          (insertParts [] (next :: rest) d) = some es2 := h
      cases hi : insertParts [] (next :: rest) d with
      | some c =>
        rw [hi, Option.map_some'] at h2
        obtain rfl := Option.some.inj h2
        rw [findDirEntry_append, hf]
        have hself : findDirEntry [Entry.dir part c] part = some (part, c) := by
          simp [findDirEntry]
        rw [hself]
        show (if part = part then containsParts c (next :: rest) d else false) = true
        rw [if_pos rfl]
        exact containsParts_insertParts (next :: rest) [] d c hi
      | none => rw [hi] at h2; cases h2

theorem insertParts_of_contains :
    ∀ (parts : List String) (es : List Entry) (d : Bool),
      containsParts es parts d = true → insertParts es parts d = some es
  | [], _, _, _ => rfl
  | [part], es, d, hc => by
    cases d
    · simp only [containsParts, Bool.false_eq_true, if_false] at hc
      simp [insertParts, hc]
    · simp only [containsParts, if_true] at hc
      cases hf : findDirEntry es part with
      | some r => simp [insertParts, hf]
      | none => simp [hf] at hc
  | part :: next :: rest, es, d, hc => by
    simp only [containsParts] at hc
    cases hf : findDirEntry es part with
    | some r =>
      obtain ⟨name, children⟩ := r
      rw [hf] at hc
      have hc2 : (if name = part then containsParts children (next :: rest) d
          else false) = true := hc
      by_cases hn : name = part
      · rw [if_pos hn] at hc2
        simp only [insertParts, hf]
        show (if name = part then
            Option.map (setFirstFound es part) (insertParts children (next :: rest) d)
          else none) = some es
        rw [if_pos hn, insertParts_of_contains (next :: rest) children d hc2,
          Option.map_some', setFirstFound_self es part name children hf]
      · rw [if_neg hn] at hc2; cases hc2
    | none => rw [hf] at hc; cases hc

theorem nodeOk_insertParts :
    ∀ (parts : List String) (es : List Entry) (d : Bool) (es2 : List Entry),
      nodeOk es = true → insertParts es parts d = some es2 → nodeOk es2 = true
  | [], _, _, _, h, hi => by
    obtain rfl := Option.some.inj hi
    exact h
  | [part], es, d, es2, h, hi => by
    obtain ⟨hd, hf, he⟩ := nodeOk_parts es h
    cases d
    · simp only [insertParts, Bool.false_eq_true, if_false] at hi
      by_cases ha : es.any (isFileNamed part) = true
      · rw [if_pos ha] at hi
        obtain rfl := Option.some.inj hi
        exact h
      · rw [if_neg ha] at hi
        obtain rfl := Option.some.inj hi
        have hnotin : part ∉ fileNames es := fun hmem =>
          ha ((any_isFileNamed_iff es part).mpr hmem)
        simp only [nodeOk, Bool.and_eq_true]
        refine ⟨⟨?_, ?_⟩, ?_⟩
        · simpa [dirNames_append, dirNames] using hd
        · rw [fileNames_append]
          simpa [fileNames] using nodupB_append_singleton _ part hnotin hf
        · simpa [entriesOk_append, entriesOk, entryOk] using he
    · simp only [insertParts, if_true] at hi
      cases hfind : findDirEntry es part with
      | some r =>
        rw [hfind] at hi
        obtain rfl := Option.some.inj hi
        exact h
      | none =>
        rw [hfind] at hi
        obtain rfl := Option.some.inj hi
        have hnotin : part ∉ dirNames es := findDirEntry_none_not_dirName es part hfind
        simp only [nodeOk, Bool.and_eq_true]
        refine ⟨⟨?_, ?_⟩, ?_⟩
        · rw [dirNames_append]
          simpa [dirNames] using nodupB_append_singleton _ part hnotin hd
        · simpa [fileNames_append, fileNames] using hf
        · simp [entriesOk_append, entriesOk, entryOk, he, nodupB, dirNames, fileNames]
  | part :: next :: rest, es, d, es2, h, hi => by
    obtain ⟨hd, hf, he⟩ := nodeOk_parts es h
    simp only [insertParts] at hi
    cases hfind : findDirEntry es part with
    | some r =>
      obtain ⟨name, children⟩ := r
      rw [hfind] at hi
      have hi2 : (if name = part then
          Option.map (setFirstFound es part) (insertParts children (next :: rest) d)
        else none) = some es2 := hi
      by_cases hn : name = part
      · rw [if_pos hn] at hi2
        cases hrec : insertParts children (next :: rest) d with
        | some c =>
          rw [hrec, Option.map_some'] at hi2
          obtain rfl := Option.some.inj hi2
          have hchild : nodeOk children = true :=
            entriesOk_findDirEntry es part he hfind
          have hins : nodeOk c = true :=
            nodeOk_insertParts (next :: rest) children d c hchild hrec
          simp only [nodeOk, Bool.and_eq_true]
          exact ⟨⟨by rw [dirNames_setFirstFound]; exact hd,
            by rw [fileNames_setFirstFound]; exact hf⟩,
            entriesOk_setFirstFound es part c he hins⟩
        | none => rw [hrec] at hi2; cases hi2
      · rw [if_neg hn] at hi2; cases hi2
    | none =>
      rw [hfind] at hi
      have hi2 : Option.map (fun c => es ++ [Entry.dir part c])
          (insertParts [] (next :: rest) d) = some es2 := hi
      cases hrec : insertParts [] (next :: rest) d with
      | some c =>
        rw [hrec, Option.map_some'] at hi2
        obtain rfl := Option.some.inj hi2
        have hnotin : part ∉ dirNames es := findDirEntry_none_not_dirName es part hfind
        have hins : nodeOk c = true := nodeOk_insertParts (next :: rest) [] d c rfl hrec
        simp only [nodeOk, Bool.and_eq_true]
        refine ⟨⟨?_, ?_⟩, ?_⟩
        · rw [dirNames_append]
          simpa [dirNames] using nodupB_append_singleton _ part hnotin hd
        · simpa [fileNames_append, fileNames] using hf
        · rw [entriesOk_append]
          simp only [Bool.and_eq_true]
          refine ⟨he, ?_⟩
          simp only [entriesOk, entryOk, Bool.and_eq_true]
          obtain ⟨h1, h2, h3⟩ := nodeOk_parts _ hins
          exact ⟨⟨⟨h1, h2⟩, h3⟩, trivial⟩
      | none => rw [hrec] at hi2; cases hi2

theorem rootFind_emb (t : Tree) (host : String) (es : List Entry)
    (hf : rootFind t host = some es) :
    ∀ {t' : Tree}, TreeEmb t t' →
      ∃ es', rootFind t' host = some es' ∧ EntriesEmb es es' := by
  induction t generalizing es with
  | nil => simp [rootFind] at hf
  | cons kv rest ih =>
    intro t' h
    cases h with
    | cons name es1 es2 t1 t2 he ht =>
      by_cases hn : name = host
      · simp only [rootFind, if_pos hn] at hf ⊢
        obtain rfl := Option.some.inj hf
        exact ⟨es2, rfl, he⟩
      · simp only [rootFind, if_neg hn] at hf ⊢
        exact ih _ hf ht

/-! ## Lemmas: one item's insertion at the root -/

theorem treeEmb_insertItem (t : Tree) (parts : List String) (d : Bool) (t2 : Tree)
    (h : insertItem t parts d = some t2) : TreeEmb t t2 := by
  cases parts with
  | nil =>
    obtain rfl := Option.some.inj h
    exact treeEmb_refl t
  | cons host rest =>
    simp only [insertItem] at h
    by_cases hp : protoProp host = true
    · rw [if_pos hp] at h
      cases rest with
      | nil =>
        obtain rfl := Option.some.inj h
        exact treeEmb_refl t
      | cons a b => cases h
    · rw [if_neg hp] at h
      cases hf : rootFind t host with
      | some es =>
        rw [hf] at h
        have h2 : Option.map (rootSet t host) (insertParts es rest d) = some t2 := h
        cases hi : insertParts es rest d with
        | some es2 =>
          rw [hi, Option.map_some'] at h2
          obtain rfl := Option.some.inj h2
          exact treeEmb_rootSet t host es es2 hf (entriesEmb_insertParts rest es d es2 hi)
        | none => rw [hi] at h2; cases h2
      | none =>
        rw [hf] at h
        have h2 : Option.map (fun es => t ++ [(host, es)])
            (insertParts [] rest d) = some t2 := h
        cases hi : insertParts [] rest d with
        | some es2 =>
          rw [hi, Option.map_some'] at h2
          obtain rfl := Option.some.inj h2
          exact treeEmb_append_right t _
        | none => rw [hi] at h2; cases h2

theorem containsItem_emb (t t2 : Tree) (parts : List String) (d : Bool)
    (h : TreeEmb t t2) (hc : containsItem t parts d = true) :
    containsItem t2 parts d = true := by
  cases parts with
  | nil => rfl
  | cons host rest =>
    simp only [containsItem] at hc ⊢
    by_cases hp : protoProp host = true
    · rw [if_pos hp] at hc ⊢
      exact hc
    · rw [if_neg hp] at hc ⊢
      cases hf : rootFind t host with
      | some es =>
        rw [hf] at hc
        obtain ⟨es2, hf2, hee⟩ := rootFind_emb t host es hf h
        rw [hf2]
        exact containsParts_emb rest hee hc
      | none => rw [hf] at hc; cases hc

theorem containsItem_insertItem (t : Tree) (parts : List String) (d : Bool) (t2 : Tree)
    (h : insertItem t parts d = some t2) : containsItem t2 parts d = true := by
  cases parts with
  | nil => rfl
  | cons host rest =>
    simp only [insertItem] at h
    simp only [containsItem]
    by_cases hp : protoProp host = true
    · rw [if_pos hp] at h
      rw [if_pos hp]
      cases rest with
      | nil => rfl
      | cons a b => cases h
    · rw [if_neg hp] at h
      rw [if_neg hp]
      cases hf : rootFind t host with
      | some es =>
        rw [hf] at h
        have h2 : Option.map (rootSet t host) (insertParts es rest d) = some t2 := h
        cases hi : insertParts es rest d with
        | some es2 =>
          rw [hi, Option.map_some'] at h2
          obtain rfl := Option.some.inj h2
          rw [rootFind_set t host es2 (by simp [hf])]
          exact containsParts_insertParts rest es d es2 hi
        | none => rw [hi] at h2; cases h2
      | none =>
        rw [hf] at h
        have h2 : Option.map (fun es => t ++ [(host, es)])
            (insertParts [] rest d) = some t2 := h
        cases hi : insertParts [] rest d with
        | some es2 =>
          rw [hi, Option.map_some'] at h2
          obtain rfl := Option.some.inj h2
          rw [rootFind_append, hf]
          simp only [rootFind, if_pos rfl]
          exact containsParts_insertParts rest [] d es2 hi
        | none => rw [hi] at h2; cases h2

theorem insertItem_of_contains (t : Tree) (parts : List String) (d : Bool)
    (hc : containsItem t parts d = true) : insertItem t parts d = some t := by
  cases parts with
  | nil => rfl
  | cons host rest =>
    simp only [containsItem] at hc
    simp only [insertItem]
    by_cases hp : protoProp host = true
    · rw [if_pos hp] at hc
      rw [if_pos hp]
      cases rest with
      | nil => rfl
      | cons a b => simp at hc
    · rw [if_neg hp] at hc
      rw [if_neg hp]
      cases hf : rootFind t host with
      | some es =>
        rw [hf] at hc
        show Option.map (rootSet t host) (insertParts es rest d) = some t
        rw [insertParts_of_contains rest es d hc, Option.map_some',
          rootSet_self t host es hf]
      | none => rw [hf] at hc; cases hc

theorem treeOk_insertItem (t : Tree) (parts : List String) (d : Bool) (t2 : Tree)
    (ht : treeOk t = true) (h : insertItem t parts d = some t2) : treeOk t2 = true := by
  obtain ⟨hk, ha⟩ := treeOk_parts t ht
  cases parts with
  | nil =>
    obtain rfl := Option.some.inj h
    exact ht
  | cons host rest =>
    simp only [insertItem] at h
    by_cases hp : protoProp host = true
    · rw [if_pos hp] at h
      cases rest with
      | nil =>
        obtain rfl := Option.some.inj h
        exact ht
      | cons a b => cases h
    · rw [if_neg hp] at h
      cases hf : rootFind t host with
      | some es =>
        rw [hf] at h
        have h2 : Option.map (rootSet t host) (insertParts es rest d) = some t2 := h
        cases hi : insertParts es rest d with
        | some es2 =>
          rw [hi, Option.map_some'] at h2
          obtain rfl := Option.some.inj h2
          have hes : nodeOk es = true := treeAll_nodeOk t host es ha hf
          simp only [treeOk, Bool.and_eq_true]
          exact ⟨by rw [rootSet_map_fst]; exact hk,
            treeAll_rootSet t host es2 ha (nodeOk_insertParts rest es d es2 hes hi)⟩
        | none => rw [hi] at h2; cases h2
      | none =>
        rw [hf] at h
        have h2 : Option.map (fun es => t ++ [(host, es)])
            (insertParts [] rest d) = some t2 := h
        cases hi : insertParts [] rest d with
        | some es2 =>
          rw [hi, Option.map_some'] at h2
          obtain rfl := Option.some.inj h2
          have hnotin : host ∉ t.map Prod.fst := (rootFind_eq_none t host).mp hf
          simp only [treeOk, Bool.and_eq_true]
          constructor
          · rw [List.map_append]
            simpa using nodupB_append_singleton _ host hnotin hk
          · rw [List.all_append]
            simp only [Bool.and_eq_true]
            exact ⟨ha, by simpa using nodeOk_insertParts rest [] d es2 rfl hi⟩
        | none => rw [hi] at h2; cases h2

/-! ## Lemmas: the fold over items -/

theorem buildFrom_nil (t : Tree) : buildFrom t [] = .ok t := rfl

theorem buildFrom_cons (t : Tree) (i : Item) (l : List Item) :
    buildFrom t (i :: l) =
      match buildStep t i with
      | .ok t1 => buildFrom t1 l
      | .error e => .error e := by
  simp only [buildFrom, List.foldlM_cons]
  cases buildStep t i with
  | ok t1 => rfl
  | error e => rfl

theorem buildFrom_append (t : Tree) (l1 l2 : List Item) :
    buildFrom t (l1 ++ l2) =
      match buildFrom t l1 with
      | .ok t1 => buildFrom t1 l2
      | .error e => .error e := by
  induction l1 generalizing t with
  | nil => rfl
  | cons i l ih =>
    rw [List.cons_append, buildFrom_cons, buildFrom_cons]
    cases buildStep t i with
    | ok t1 => exact ih t1
    | error e => rfl

theorem buildStep_ok (t t1 : Tree) (i : Item) (h : buildStep t i = .ok t1) :
    ∃ parts d, decomposeUrl i.fileUrl = some (parts, d) ∧
      insertItem t parts d = some t1 := by
  simp only [buildStep] at h
  cases hd : decomposeUrl i.fileUrl with
  | some pd =>
    obtain ⟨parts, d⟩ := pd
    rw [hd] at h
    have h2 : (match insertItem t parts d with
      | some t2 => Except.ok t2
      | none => Except.error JsError.typeError) = Except.ok t1 := h
    cases hi : insertItem t parts d with
    | some t2 =>
      rw [hi] at h2
      obtain rfl := Except.ok.inj h2
      exact ⟨parts, d, rfl, hi⟩
    | none => rw [hi] at h2; cases h2
  | none => rw [hd] at h; cases h

theorem buildFrom_emb (l : List Item) :
    ∀ (t t1 : Tree), buildFrom t l = .ok t1 → TreeEmb t t1 := by
  induction l with
  | nil =>
    intro t t1 h
    obtain rfl := Except.ok.inj h
    exact treeEmb_refl t
  | cons i l ih =>
    intro t t1 h
    rw [buildFrom_cons] at h
    cases hs : buildStep t i with
    | ok tm =>
      rw [hs] at h
      obtain ⟨parts, d, _, hins⟩ := buildStep_ok t tm i hs
      exact treeEmb_trans (treeEmb_insertItem t parts d tm hins) (ih _ t1 h)
    | error e => rw [hs] at h; cases h

theorem treeOk_buildFrom (l : List Item) :
    ∀ (t t1 : Tree), treeOk t = true → buildFrom t l = .ok t1 → treeOk t1 = true := by
  induction l with
  | nil =>
    intro t t1 h hb
    obtain rfl := Except.ok.inj hb
    exact h
  | cons i l ih =>
    intro t t1 h hb
    rw [buildFrom_cons] at hb
    cases hs : buildStep t i with
    | ok tm =>
      rw [hs] at hb
      obtain ⟨parts, d, _, hins⟩ := buildStep_ok t tm i hs
      exact ih _ t1 (treeOk_insertItem t parts d tm h hins) hb
    | error e => rw [hs] at hb; cases hb

theorem buildFrom_duplicate_skip (l2 : List Item) (u : Item) (parts : List String)
    (d : Bool) (hu : decomposeUrl u.fileUrl = some (parts, d)) :
    ∀ (t : Tree) (l3 : List Item), containsItem t parts d = true →
      buildFrom t (l2 ++ u :: l3) = buildFrom t (l2 ++ l3) := by
  induction l2 with
  | nil =>
    intro t l3 hc
    rw [List.nil_append, List.nil_append, buildFrom_cons]
    have hstep : buildStep t u = .ok t := by
      simp [buildStep, hu, insertItem_of_contains t parts d hc]
    rw [hstep]
  | cons i l ih =>
    intro t l3 hc
    rw [List.cons_append, List.cons_append, buildFrom_cons, buildFrom_cons]
    cases hs : buildStep t i with
    | ok t1 =>
      obtain ⟨p1, d1, _, hins⟩ := buildStep_ok t t1 i hs
      exact ih t1 l3
        (containsItem_emb t t1 parts d (treeEmb_insertItem t p1 d1 t1 hins) hc)
    | error e => rfl

/-! ## Lemmas: sibling order, name kinds and prefix embedding -/


theorem entryEmb_nameKind {e e1 : Entry} (h : EntryEmb e e1) : nameKind e = nameKind e1 := by
  cases h with
  | file n => rfl
  | dir n c1 c2 hc => rfl

theorem entriesEmb_nameKind_front {es es1 : List Entry} (h : EntriesEmb es es1) :
    es.map nameKind <+: es1.map nameKind := by
  induction es generalizing es1 with
  | nil => simp
  | cons e t ih =>
    cases h with
    | cons e1 e2 t1 t2 he ht =>
      rw [List.map_cons, List.map_cons, entryEmb_nameKind he]
      exact (List.cons_prefix_cons).mpr ⟨rfl, ih ht⟩

theorem mem_map_nameKind_file (es : List Entry) (n : String) :
    (false, n) ∈ es.map nameKind ↔ n ∈ fileNames es := by
  induction es with
  | nil => simp [fileNames]
  | cons e t ih =>
    cases e with
    | file m => simp [nameKind, fileNames, ih, Prod.ext_iff]
    | dir m c => simp [nameKind, fileNames, ih, Prod.ext_iff]

theorem mem_map_nameKind_dir (es : List Entry) (n : String) :
    (true, n) ∈ es.map nameKind ↔ n ∈ dirNames es := by
  induction es with
  | nil => simp [dirNames]
  | cons e t ih =>
    cases e with
    | file m => simp [nameKind, dirNames, ih, Prod.ext_iff]
    | dir m c => simp [nameKind, dirNames, ih, Prod.ext_iff]

theorem nodeOk_tail (e : Entry) (t : List Entry) (h : nodeOk (e :: t) = true) :
    nodeOk t = true := by
  obtain ⟨hd, hf, he⟩ := nodeOk_parts _ h
  simp only [nodeOk, Bool.and_eq_true]
  simp only [entriesOk, Bool.and_eq_true] at he
  refine ⟨⟨?_, ?_⟩, he.2⟩
  · cases e with
    | file n => simpa [dirNames] using hd
    | dir n c =>
      simp only [dirNames, List.filterMap_cons, nodupB, Bool.and_eq_true] at hd
      exact hd.2
  · cases e with
    | file n =>
      simp only [fileNames, List.filterMap_cons, nodupB, Bool.and_eq_true] at hf
      exact hf.2
    | dir n c => simpa [fileNames] using hf

theorem nodeOk_nameKind_nodup (es : List Entry) (h : nodeOk es = true) :
    (es.map nameKind).Nodup := by
  induction es with
  | nil => simp
  | cons e t ih =>
    rw [List.map_cons, List.nodup_cons]
    obtain ⟨hd, hf, _⟩ := nodeOk_parts _ h
    refine ⟨?_, ih (nodeOk_tail e t h)⟩
    cases e with
    | file n =>
      simp only [nameKind]
      rw [mem_map_nameKind_file]
      rw [nodupB_iff] at hf
      have hstep : fileNames (Entry.file n :: t) = n :: fileNames t := by
        simp [fileNames]
      rw [hstep, List.nodup_cons] at hf
      exact hf.1
    | dir n c =>
      simp only [nameKind]
      rw [mem_map_nameKind_dir]
      rw [nodupB_iff] at hd
      have hstep : dirNames (Entry.dir n c :: t) = n :: dirNames t := by
        simp [dirNames]
      rw [hstep, List.nodup_cons] at hd
      exact hd.1

theorem findDirNamed_emb (es : List Entry) (part : String) (c : List Entry)
    (hf : findDirNamed es part = some c) :
    ∀ {es' : List Entry}, EntriesEmb es es' →
      ∃ c', findDirNamed es' part = some c' ∧ EntriesEmb c c' := by
  induction es generalizing c with
  | nil => simp [findDirNamed] at hf
  | cons e t ih =>
    intro es' h
    cases h with
    | cons e1 e2 t1 t2 he ht =>
      cases he with
      | file n =>
        simp only [findDirNamed] at hf ⊢
        exact ih _ hf ht
      | dir n c1 c2 hc =>
        by_cases hn : n = part
        · simp only [findDirNamed, if_pos hn] at hf ⊢
          obtain rfl := Option.some.inj hf
          exact ⟨c2, rfl, hc⟩
        · simp only [findDirNamed, if_neg hn] at hf ⊢
          exact ih _ hf ht

theorem entriesOk_findDirNamed (es : List Entry) (part : String) (c : List Entry)
    (he : entriesOk es = true) (hf : findDirNamed es part = some c) :
    nodeOk c = true := by
  induction es with
  | nil => simp [findDirNamed] at hf
  | cons e t ih =>
    simp only [entriesOk, Bool.and_eq_true] at he
    cases e with
    | file n =>
      simp only [findDirNamed] at hf
      exact ih he.2 hf
    | dir n ch =>
      by_cases hn : n = part
      · simp only [findDirNamed, if_pos hn] at hf
        obtain rfl := Option.some.inj hf
        simpa [entryOk, nodeOk] using he.1
      · simp only [findDirNamed, if_neg hn] at hf
        exact ih he.2 hf

theorem lookupNode_emb :
    ∀ (dirs : List String) {es es1 fs fs1 : List Entry}, EntriesEmb es es1 →
      lookupNode es dirs = some fs → lookupNode es1 dirs = some fs1 →
      EntriesEmb fs fs1
  | [], es, es1, fs, fs1, h, h1, h2 => by
    obtain rfl := Option.some.inj h1
    obtain rfl := Option.some.inj h2
    exact h
  | p :: ps, es, es1, fs, fs1, h, h1, h2 => by
    simp only [lookupNode] at h1 h2
    cases hf : findDirNamed es p with
    | some c =>
      rw [hf] at h1
      obtain ⟨c1, hf1, hc⟩ := findDirNamed_emb es p c hf h
      rw [hf1] at h2
      exact lookupNode_emb ps hc h1 h2
    | none => rw [hf] at h1; cases h1

theorem lookupTreeNode_emb (path : List String) {t t1 : Tree} {es es1 : List Entry}
    (h : TreeEmb t t1) (h1 : lookupTreeNode t path = some es)
    (h2 : lookupTreeNode t1 path = some es1) : EntriesEmb es es1 := by
  cases path with
  | nil => cases h1
  | cons host dirs =>
    simp only [lookupTreeNode] at h1 h2
    cases hf : rootFind t host with
    | some fs =>
      rw [hf] at h1
      obtain ⟨fs1, hf1, hc⟩ := rootFind_emb t host fs hf h
      rw [hf1] at h2
      exact lookupNode_emb dirs hc h1 h2
    | none => rw [hf] at h1; cases h1

theorem nodeOk_lookupNode :
    ∀ (dirs : List String) (es fs : List Entry), nodeOk es = true →
      lookupNode es dirs = some fs → nodeOk fs = true
  | [], es, fs, h, hl => by
    obtain rfl := Option.some.inj hl
    exact h
  | p :: ps, es, fs, h, hl => by
    simp only [lookupNode] at hl
    cases hf : findDirNamed es p with
    | some c =>
      rw [hf] at hl
      obtain ⟨_, _, he⟩ := nodeOk_parts es h
      exact nodeOk_lookupNode ps c fs (entriesOk_findDirNamed es p c he hf) hl
    | none => rw [hf] at hl; cases hl

theorem nodeOk_lookupTreeNode (path : List String) (t : Tree) (es : List Entry)
    (h : treeOk t = true) (hl : lookupTreeNode t path = some es) :
    nodeOk es = true := by
  cases path with
  | nil => cases hl
  | cons host dirs =>
    simp only [lookupTreeNode] at hl
    cases hf : rootFind t host with
    | some fs =>
      rw [hf] at hl
      obtain ⟨_, ha⟩ := treeOk_parts t h
      exact nodeOk_lookupNode dirs fs es (treeAll_nodeOk t host fs ha hf) hl
    | none => rw [hf] at hl; cases hl

theorem mem_prefix_of_earlier {α : Type} (p full : List α) (hpre : p <+: full)
    (hnd : full.Nodup) (i j : Nat) (hij : i < j) (hj : j < full.length)
    (hmem : full[j] ∈ p) : full[i] ∈ p := by
  obtain ⟨m, hm, hpm⟩ := List.getElem_of_mem hmem
  have hmlen : m < full.length := lt_of_lt_of_le hm hpre.length_le
  have hfull : full[m] = full[j] := by
    rw [← hpm]
    exact (hpre.getElem hm).symm
  have hmj : m = j := (List.Nodup.getElem_inj_iff hnd).mp hfull
  have hjp : j < p.length := hmj ▸ hm
  have hip : i < p.length := lt_trans hij hjp
  have : p[i] = full[i] := hpre.getElem hip
  rw [← this]
  exact List.getElem_mem hip

/-! ## The claims -/


/-- C1: on the input item list
`[{fileUrl:"https://ex.com/docs/readme.txt"}, {fileUrl:"https://ex.com/docs/"},
{fileUrl:"https://ex.com/img.png"}]`, `transformToTree` returns exactly
`{"ex.com": [{"docs": ["readme.txt"]}, "img.png"]}`, with the directory
entry `docs` preceding the file entry `img.png` at the root level because
it was first seen first. -/
theorem c1_end_to_end_example :
    transformToTree [⟨"https://ex.com/docs/readme.txt"⟩, ⟨"https://ex.com/docs/"⟩,
      ⟨"https://ex.com/img.png"⟩] =
    .ok [("ex.com", [.dir "docs" [.file "readme.txt"], .file "img.png"])] := rfl

/-- C2: building a tree from a list in which some URL occurs twice yields
the same tree as building from the list with the duplicate occurrence
removed — re-ingesting an already-present file or directory URL changes
nothing (and when the first occurrence already aborts the build, both
lists abort identically). -/
theorem c2_duplicate_url_idempotent (l1 l2 l3 : List Item) (u : Item) :
    transformToTree (l1 ++ u :: (l2 ++ u :: l3)) =
      transformToTree (l1 ++ u :: (l2 ++ l3)) := by
  unfold transformToTree
  rw [buildFrom_append, buildFrom_append]
  cases hb : buildFrom [] l1 with
  | ok t =>
    show buildFrom t (u :: (l2 ++ u :: l3)) = buildFrom t (u :: (l2 ++ l3))
    rw [buildFrom_cons, buildFrom_cons]
    cases hs : buildStep t u with
    | ok t1 =>
      obtain ⟨parts, d, hd, hins⟩ := buildStep_ok t t1 u hs
      exact buildFrom_duplicate_skip l2 u parts d hd t1 l3
        (containsItem_insertItem t parts d t1 hins)
    | error e => rfl
  | error e => rfl

/-- C3: `https://h/a/b` yields file `b` under directory `a` under host `h`,
while `https://h/a/b/` yields an empty directory `b` under `a` under `h`;
and for every decomposed URL the directory flag is decided by whether the
original raw `fileUrl` string (before any encoding/decoding) ends in `/`. -/
theorem c3_trailing_slash_disambiguation :
    transformToTree [⟨"https://h/a/b"⟩] = .ok [("h", [.dir "a" [.file "b"]])] ∧
    transformToTree [⟨"https://h/a/b/"⟩] = .ok [("h", [.dir "a" [.dir "b" []]])] ∧
    ∀ fileUrl parts isDir, decomposeUrl fileUrl = some (parts, isDir) →
      isDir = endsWithSlash fileUrl := by
  refine ⟨rfl, rfl, ?_⟩
  intro fileUrl parts isDir h
  unfold decomposeUrl at h
  cases hp : parseUrl (encodeURI fileUrl) with
  | none => rw [hp] at h; cases h
  | some url =>
    rw [hp] at h
    have h2 : (match (((splitOnSlash url.pathname.data).map String.mk).filter
          (fun p => p ≠ "")).mapM decodeURIComponent with
        | none => none
        | some segs => some (url.hostname :: segs, endsWithSlash fileUrl)) =
          some (parts, isDir) := h
    cases hm : (((splitOnSlash url.pathname.data).map String.mk).filter
        (fun p => p ≠ "")).mapM decodeURIComponent with
    | none => rw [hm] at h2; cases h2
    | some segs =>
      rw [hm] at h2
      have hpair := Option.some.inj h2
      rw [Prod.mk.injEq] at hpair
      exact hpair.2.symm

theorem c3_witness :
    decomposeUrl "https://h/a/b/" = some (["h", "a", "b"], true) ∧
    true = endsWithSlash "https://h/a/b/" :=
  ⟨rfl, c3_trailing_slash_disambiguation.2.2 "https://h/a/b/" ["h", "a", "b"] true rfl⟩

/-- C4: what the code actually does on `{fileUrl:"https://h/a%20b/c"}` —
`encodeURI` escapes the `%` to `%25`, so the per-segment
`decodeURIComponent` only undoes that defensive escaping and the middle
segment comes out as the literal `a%20b`, not `a b`: the resulting tree is
`{"h": [{"a%20b": ["c"]}]}`, contradicting the claimed
`{"h": [{"a b": ["c"]}]}`. -/
theorem c4_percent_encoded_input_not_decoded :
    transformToTree [⟨"https://h/a%20b/c"⟩] =
      .ok [("h", [.dir "a%20b" [.file "c"]])] ∧
    decomposeUrl "https://h/a%20b/c" = some (["h", "a%20b", "c"], false) ∧
    encodeURI "https://h/a%20b/c" = "https://h/a%2520b/c" :=
  ⟨rfl, rfl, rfl⟩

/-- C5: any two entries that end up as siblings in the same parent's entry
sequence appear in the relative order in which the input items that first
introduced each of them occur in the input: whenever the tree built from a
prefix of the input already holds the later sibling, it also holds the
earlier one. -/
theorem c5_sibling_order_first_seen (items : List Item) (t : Tree)
    (path : List String) (es : List Entry)
    (ht : transformToTree items = .ok t)
    (hes : lookupTreeNode t path = some es)
    (i j : Nat) (hij : i < j) (hj : j < es.length)
    (k : Nat) (tk : Tree) (esk : List Entry)
    (htk : transformToTree (items.take k) = .ok tk)
    (hesk : lookupTreeNode tk path = some esk)
    (hjmem : nameKind (es.get ⟨j, hj⟩) ∈ esk.map nameKind) :
    nameKind (es.get ⟨i, lt_trans hij hj⟩) ∈ esk.map nameKind := by
  have hsplit : transformToTree (items.take k ++ items.drop k) = .ok t := by
    rw [List.take_append_drop]; exact ht
  have hemb : TreeEmb tk t := by
    unfold transformToTree at htk hsplit
    rw [buildFrom_append, htk] at hsplit
    exact buildFrom_emb _ tk t hsplit
  have hee : EntriesEmb esk es := lookupTreeNode_emb path hemb hesk hes
  have hpre : esk.map nameKind <+: es.map nameKind := entriesEmb_nameKind_front hee
  have hok : treeOk t = true := treeOk_buildFrom items [] t rfl ht
  have hnd : (es.map nameKind).Nodup :=
    nodeOk_nameKind_nodup es (nodeOk_lookupTreeNode path t es hok hes)
  have hjlen : j < (es.map nameKind).length := by simpa using hj
  have hjmem2 : (es.map nameKind)[j] ∈ esk.map nameKind := by
    rw [List.getElem_map]
    simpa [List.get_eq_getElem] using hjmem
  have hres := mem_prefix_of_earlier (esk.map nameKind) (es.map nameKind) hpre hnd
    i j hij hjlen hjmem2
  rw [List.getElem_map] at hres
  simpa [List.get_eq_getElem] using hres

theorem c5_witness :
    nameKind ([Entry.file "a", Entry.file "b"].get ⟨0, by decide⟩) ∈
      [Entry.file "a", Entry.file "b"].map nameKind :=
  c5_sibling_order_first_seen [⟨"https://h/a"⟩, ⟨"https://h/b"⟩]
    [("h", [.file "a", .file "b"])] ["h"] [.file "a", .file "b"] rfl rfl
    0 1 (by decide) (by decide) 2 [("h", [.file "a", .file "b"])]
    [.file "a", .file "b"] rfl rfl (by decide)

/-- C6 as stated is false on the code: a file and a directory of the same
name under the same parent both end up in the entry sequence — the
directory lookup only matches objects and the file lookup only strings, so
the second is added rather than suppressed. -/
theorem c6_counterexample_file_dir_share_name :
    transformToTree [⟨"https://h/foo"⟩, ⟨"https://h/foo/"⟩] =
      .ok [("h", [.file "foo", .dir "foo" []])] ∧
    treeNamesUnique [("h", [.file "foo", .dir "foo" []])] = false :=
  ⟨rfl, rfl⟩

/-- C6 (amended): within any single parent's entry sequence, at most one
file entry and at most one subdirectory entry bear a given name (per-kind
uniqueness; a file and a directory may share a name and then coexist), and
the root's hostname keys are likewise distinct. -/
theorem c6_amended_per_kind_unique (items : List Item) (t : Tree)
    (h : transformToTree items = .ok t) : treeOk t = true :=
  treeOk_buildFrom items [] t rfl h

theorem c6_amended_witness :
    treeOk [("h", [.file "foo", .dir "foo" []])] = true :=
  c6_amended_per_kind_unique [⟨"https://h/foo"⟩, ⟨"https://h/foo/"⟩] _ rfl

/-- C7 as stated is false on the code: `transformToTree` can fail on an
item whose `fileUrl` decomposes successfully.  `new URL` accepts the
hostname `constructor`, but `tree['constructor']` is the inherited
`Object.prototype.constructor`, so the truthiness test skips the root
initialisation and the next iteration calls `.find` on a function — the
build aborts with a `TypeError`, not a `MalformedUrlError`, and no tree
is returned. -/
theorem c7_decomposable_item_can_still_crash :
    (decomposeUrl "https://constructor/x").isSome = true ∧
    decomposeUrl "https://constructor/x" = some (["constructor", "x"], false) ∧
    transformToTree [⟨"https://constructor/x"⟩] = .error .typeError :=
  ⟨rfl, rfl, rfl⟩

/-- C8: a request served while a snapshot exists with age strictly below
`CACHE_DURATION_MS` returns the cached tree without invoking the fetch and
leaves the cache untouched; with no snapshot, or at age `≥ CACHE_DURATION_MS`,
the fetch is invoked, and when the fetch-and-rebuild succeeds a new
snapshot with `builtAt = now` is published and served. -/
theorem c8_freshness_boundary (cache : CacheState) (now : Int) (u : UpstreamOutcome) :
    (∀ snap, cache = some snap → now - snap.timestamp < CACHE_DURATION_MS →
      handleGetFiles cache now u =
        { cacheAfter := cache, status := 200, body := some snap.tree, fetched := false }) ∧
    ((cache = none ∨ ∃ snap, cache = some snap ∧ CACHE_DURATION_MS ≤ now - snap.timestamp) →
      (handleGetFiles cache now u).fetched = true ∧
      ∀ t2, fetchDataAndTransform u = .ok t2 →
        handleGetFiles cache now u =
          { cacheAfter := some ⟨t2, now⟩, status := 200, body := some t2,
            fetched := true }) := by
  constructor
  · rintro snap rfl hlt
    simp [handleGetFiles, hlt]
  · intro hstale
    have hre : handleGetFiles cache now u = rebuildAndRespond cache now u := by
      rcases hstale with rfl | ⟨snap, rfl, hge⟩
      · rfl
      · simp [handleGetFiles, not_lt.mpr hge]
    rw [hre]
    constructor
    · unfold rebuildAndRespond
      cases fetchDataAndTransform u with
      | ok d => rfl
      | error e => rfl
    · intro t2 hok
      simp [rebuildAndRespond, hok]

theorem c8_witness :
    handleGetFiles (some ⟨[("h", [.file "x"])], 0⟩) 59999 (.items []) =
      { cacheAfter := some ⟨[("h", [.file "x"])], 0⟩, status := 200,
        body := some [("h", [.file "x"])], fetched := false } ∧
    handleGetFiles (some ⟨[("h", [.file "x"])], 0⟩) 60000 (.items []) =
      { cacheAfter := some ⟨[], 60000⟩, status := 200, body := some [],
        fetched := true } :=
  ⟨(c8_freshness_boundary _ 59999 _).1 _ rfl (by decide),
    ((c8_freshness_boundary _ 60000 _).2
      (Or.inr ⟨_, rfl, by decide⟩)).2 [] rfl⟩

/-- C9: when the fetch-and-rebuild fails, both the request-triggered path
and the background refresher leave the pre-existing snapshot (tree and
timestamp) completely unchanged, and the request-triggered path that
actually rebuilt serves no tree and surfaces the classified error kind:
upstream status 504 → 504 Gateway Timeout, upstream status 502 or no
response received → 502 Bad Gateway, anything else → 500. -/
theorem c9_failure_isolation (cache : CacheState) (now : Int) (u : UpstreamOutcome)
    (e : FetchError) (hfail : fetchDataAndTransform u = .error e) :
    (handleGetFiles cache now u).cacheAfter = cache ∧
    updateCache cache now u = cache ∧
    ((handleGetFiles cache now u).fetched = true →
      (handleGetFiles cache now u).body = none ∧
      (∀ s, e = .status s →
        (handleGetFiles cache now u).status =
          if s = 504 then 504 else if s = 502 then 502 else 500) ∧
      (e = .noResponse → (handleGetFiles cache now u).status = 502) ∧
      (e = .other → (handleGetFiles cache now u).status = 500)) := by
  have hre : rebuildAndRespond cache now u =
      { cacheAfter := cache, status := classifyStatus e, body := none,
        fetched := true } := by
    simp [rebuildAndRespond, hfail]
  have hstatus : ∀ s : Nat, classifyStatus (.status s) =
      if s = 504 then 504 else if s = 502 then 502 else 500 := fun s => rfl
  refine ⟨?_, ?_, ?_⟩
  · cases cache with
    | none =>
      rw [show handleGetFiles none now u = rebuildAndRespond none now u from rfl, hre]
    | some snap =>
      by_cases hlt : now - snap.timestamp < CACHE_DURATION_MS
      · simp [handleGetFiles, hlt]
      · simp [handleGetFiles, hlt, hre]
  · simp [updateCache, hfail]
  · intro hf
    have hg : handleGetFiles cache now u =
        { cacheAfter := cache, status := classifyStatus e, body := none,
          fetched := true } := by
      cases cache with
      | none =>
        rw [show handleGetFiles none now u = rebuildAndRespond none now u from rfl, hre]
      | some snap =>
        by_cases hlt : now - snap.timestamp < CACHE_DURATION_MS
        · rw [show handleGetFiles (some snap) now u =
              { cacheAfter := some snap, status := 200, body := some snap.tree,
                fetched := false } from by simp [handleGetFiles, hlt]] at hf
          cases hf
        · rw [show handleGetFiles (some snap) now u = rebuildAndRespond (some snap) now u
              from by simp [handleGetFiles, hlt], hre]
    refine ⟨by rw [hg], ?_, ?_, ?_⟩
    · rintro s rfl
      rw [hg]
      exact hstatus s
    · rintro rfl
      rw [hg]
      rfl
    · rintro rfl
      rw [hg]
      rfl

theorem c9_witness :
    (handleGetFiles (some ⟨[("h", [.file "x"])], 0⟩) 60000 .errNoResponse).cacheAfter =
      some ⟨[("h", [.file "x"])], 0⟩ ∧
    updateCache (some ⟨[("h", [.file "x"])], 0⟩) 60000 .errNoResponse =
      some ⟨[("h", [.file "x"])], 0⟩ ∧
    (handleGetFiles (some ⟨[("h", [.file "x"])], 0⟩) 60000 .errNoResponse).status = 502 := by
  have h := c9_failure_isolation (some ⟨[("h", [.file "x"])], 0⟩) 60000 .errNoResponse
    .noResponse rfl
  exact ⟨h.1, h.2.1, (h.2.2 rfl).2.2.1 rfl⟩

/-- C10: during the left-to-right fold, every parent's entry sequence only
grows by appending at the end — the tree built from any prefix of the input
list is embedded order-preservingly in the final tree. -/
theorem c10_prefix_tree_embeds (l1 l2 : List Item) (t1 t : Tree)
    (h1 : transformToTree l1 = .ok t1)
    (h : transformToTree (l1 ++ l2) = .ok t) : TreeEmb t1 t := by
  unfold transformToTree at h1 h
  rw [buildFrom_append, h1] at h
  exact buildFrom_emb l2 t1 t h

theorem c10_witness :
    TreeEmb [("h", [.file "a"])] [("h", [.file "a", .file "b"])] :=
  c10_prefix_tree_embeds [⟨"https://h/a"⟩] [⟨"https://h/b"⟩] _ _ rfl rfl

end BlueGrid
